import Mathlib

/-!
# Verification of the rockchain ledger core

A shallow embedding, in Lean 4, of the single-node blockchain server in
`src/main.rs`: the `Blockchain` state (chain of blocks plus pending
transaction pool), its operations (`new_blockchain`, `new_block`,
`new_transaction`, `last_block`, `hash`, `proof_of_work`, `valid_proof`),
together with an executable model of the SHA-256 digest used by the
proof-of-work puzzle and of the `DefaultHasher` (SipHash-1-3) fingerprint
used for chain linkage.  Machine integers are represented as `Nat` (with
explicit reduction modulo `2 ^ w` where wrap-around matters), fallible
operations return `Option`, and the nondeterministic wall-clock timestamp
(`Utc::now()`) is threaded as an explicit `Nat` argument.
-/

/-! ## SHA-256 (the `sha2` crate's `Sha256`, modelled from FIPS 180-4)

The Rust code feeds 16 bytes into `Sha256` and inspects the 32-byte digest.
All words are 32-bit, represented as `Nat < 2 ^ 32`. -/

/-- Truncate to an unsigned 32-bit word. -/
def u32 (n : Nat) : Nat := n % 4294967296

/-- Right rotation of a 32-bit word. -/
def rotr32 (x n : Nat) : Nat := u32 ((x >>> n) ||| (x <<< (32 - n)))

/-- Bitwise complement of a 32-bit word. -/
def not32 (x : Nat) : Nat := x ^^^ 4294967295

/-- SHA-256 `Ch` function. -/
def shaCh (x y z : Nat) : Nat := (x &&& y) ^^^ (not32 x &&& z)

/-- SHA-256 `Maj` function. -/
def shaMaj (x y z : Nat) : Nat := (x &&& y) ^^^ (x &&& z) ^^^ (y &&& z)

/-- SHA-256 big sigma 0. -/
def bsig0 (x : Nat) : Nat := rotr32 x 2 ^^^ rotr32 x 13 ^^^ rotr32 x 22

/-- SHA-256 big sigma 1. -/
def bsig1 (x : Nat) : Nat := rotr32 x 6 ^^^ rotr32 x 11 ^^^ rotr32 x 25

/-- SHA-256 small sigma 0. -/
def ssig0 (x : Nat) : Nat := rotr32 x 7 ^^^ rotr32 x 18 ^^^ (x >>> 3)

/-- SHA-256 small sigma 1. -/
def ssig1 (x : Nat) : Nat := rotr32 x 17 ^^^ rotr32 x 19 ^^^ (x >>> 10)

/-- The 64 SHA-256 round constants. -/
def shaK : Array Nat := #[
  1116352408, 1899447441, 3049323471, 3921009573, 961987163,
  1508970993, 2453635748, 2870763221, 3624381080, 310598401,
  607225278, 1426881987, 1925078388, 2162078206, 2614888103,
  3248222580, 3835390401, 4022224774, 264347078, 604807628,
  770255983, 1249150122, 1555081692, 1996064986, 2554220882,
  2821834349, 2952996808, 3210313671, 3336571891, 3584528711,
  113926993, 338241895, 666307205, 773529912, 1294757372,
  1396182291, 1695183700, 1986661051, 2177026350, 2456956037,
  2730485921, 2820302411, 3259730800, 3345764771, 3516065817,
  3600352804, 4094571909, 275423344, 430227734, 506948616,
  659060556, 883997877, 958139571, 1322822218, 1537002063,
  1747873779, 1955562222, 2024104815, 2227730452, 2361852424,
  2428436474, 2756734187, 3204031479, 3329325298]

/-- The SHA-256 initial hash state. -/
def shaH0 : List Nat :=
  [1779033703, 3144134277, 1013904242, 2773480762,
   1359893119, 2600822924, 528734635, 1541459225]

/-- Extend the 16 message-schedule words of one block to 64. -/
def extendW (w : Array Nat) : Array Nat :=
  (List.range 48).foldl
    (fun w j =>
      w.push (u32 (ssig1 (w.getD (j + 14) 0) + w.getD (j + 9) 0 +
                   ssig0 (w.getD (j + 1) 0) + w.getD j 0)))
    w

/-- One round of the SHA-256 compression loop on the working variables. -/
def shaRound (st : List Nat) (ki wi : Nat) : List Nat :=
  match st with
  | [a, b, c, d, e, f, g, h] =>
    let t1 := u32 (h + bsig1 e + shaCh e f g + ki + wi)
    let t2 := u32 (bsig0 a + shaMaj a b c)
    [u32 (t1 + t2), a, b, c, u32 (d + t1), e, f, g]
  | st => st

/-- Compress one 512-bit block (given as its 64 schedule words) into the state. -/
def shaCompress (hs : List Nat) (w : Array Nat) : List Nat :=
  let fin := (List.range 64).foldl (fun st i => shaRound st (shaK.getD i 0) (w.getD i 0)) hs
  (hs.zip fin).map (fun p => u32 (p.1 + p.2))

/-- Split a byte list into 32-bit big-endian words. -/
def bytesToWordsBE : List Nat → List Nat
  | b0 :: b1 :: b2 :: b3 :: rest =>
      (((b0 * 256 + b1) * 256 + b2) * 256 + b3) :: bytesToWordsBE rest
  | _ => []

/-- The 8 big-endian bytes of a 64-bit quantity (most significant first). -/
def u64BEbytes (n : Nat) : List Nat :=
  [n / 2 ^ 56 % 256, n / 2 ^ 48 % 256, n / 2 ^ 40 % 256, n / 2 ^ 32 % 256,
   n / 2 ^ 24 % 256, n / 2 ^ 16 % 256, n / 2 ^ 8 % 256, n % 256]

/-- SHA-256 padding: append `0x80`, zero bytes to 56 mod 64, then the bit
length as 8 big-endian bytes. -/
def shaPad (msg : List Nat) : List Nat :=
  let l := msg.length
  let zeros := (55 + 64 - l % 64) % 64
  msg ++ 0x80 :: List.replicate zeros 0 ++ u64BEbytes (8 * l)

/-- Split a list into chunks of 16 elements (the padded word stream into
512-bit blocks), consuming the given fuel. -/
def chunks16 : Nat → List Nat → List (List Nat)
  | 0, _ => []
  | _, [] => []
  | n + 1, ws => ws.take 16 :: chunks16 n (ws.drop 16)

/-- The big-endian bytes of one 32-bit word. -/
def wordBytesBE (w : Nat) : List Nat :=
  [w / 2 ^ 24 % 256, w / 2 ^ 16 % 256, w / 2 ^ 8 % 256, w % 256]

/-- SHA-256 of a byte sequence: the 32 digest bytes. -/
def sha256 (msg : List Nat) : List Nat :=
  let ws := bytesToWordsBE (shaPad msg)
  let blocks := chunks16 ws.length ws
  let hs := blocks.foldl (fun hs blk => shaCompress hs (extendW (List.toArray blk))) shaH0
  hs.foldr (fun h acc => wordBytesBE h ++ acc) []

/-! ## SipHash-1-3 (std's `DefaultHasher`, used by `Blockchain::hash`)

`Blockchain::hash` feeds a `Block` into `DefaultHasher::new()` (SipHash-1-3
keyed with 0,0) via the derived `Hash` instance and returns `finish()`.
All words here are 64-bit `Nat`s. -/

/-- Truncate to an unsigned 64-bit word. -/
def u64 (n : Nat) : Nat := n % 18446744073709551616

/-- Left rotation of a 64-bit word. -/
def rotl64 (x n : Nat) : Nat := u64 ((x <<< n) ||| (x >>> (64 - n)))

/-- The four 64-bit words of the SipHash internal state. -/
structure SipState where
  v0 : Nat
  v1 : Nat
  v2 : Nat
  v3 : Nat

/-- One SipRound. -/
def sipRound (s : SipState) : SipState :=
  let v0 := u64 (s.v0 + s.v1)
  let v1 := rotl64 s.v1 13
  let v1 := v1 ^^^ v0
  let v0 := rotl64 v0 32
  let v2 := u64 (s.v2 + s.v3)
  let v3 := rotl64 s.v3 16
  let v3 := v3 ^^^ v2
  let v0 := u64 (v0 + v3)
  let v3 := rotl64 v3 21
  let v3 := v3 ^^^ v0
  let v2 := u64 (v2 + v1)
  let v1 := rotl64 v1 17
  let v1 := v1 ^^^ v2
  let v2 := rotl64 v2 32
  ⟨v0, v1, v2, v3⟩

/-- Absorb one 64-bit message word (SipHash-1-3: one round per word). -/
def sipAbsorb (s : SipState) (m : Nat) : SipState :=
  let s := { s with v3 := s.v3 ^^^ m }
  let s := sipRound s
  { s with v0 := s.v0 ^^^ m }

/-- A little-endian 64-bit word from up to 8 bytes. -/
def leWord (bs : List Nat) : Nat := bs.foldr (fun b acc => b + 256 * acc) 0

/-- The message words of a byte stream: full 8-byte little-endian words, then
a final word carrying the (at most 7) remaining bytes and the total length
modulo 256 in the top byte. -/
def sipWords (fuel len : Nat) (bs : List Nat) : List Nat :=
  match fuel with
  | 0 => []
  | fuel + 1 =>
    if 8 ≤ bs.length then leWord (bs.take 8) :: sipWords fuel len (bs.drop 8)
    else [leWord bs + len % 256 * 2 ^ 56]

/-- SipHash-1-3 of a byte stream with keys `k0`, `k1`. -/
def siphash13 (k0 k1 : Nat) (bs : List Nat) : Nat :=
  let s : SipState := ⟨k0 ^^^ 0x736f6d6570736575, k1 ^^^ 0x646f72616e646f6d,
                       k0 ^^^ 0x6c7967656e657261, k1 ^^^ 0x7465646279746573⟩
  let s := (sipWords (bs.length + 1) bs.length bs).foldl sipAbsorb s
  let s := { s with v2 := s.v2 ^^^ 0xff }
  let s := sipRound (sipRound (sipRound s))
  s.v0 ^^^ s.v1 ^^^ s.v2 ^^^ s.v3

/-! ## Data model (`Transaction`, `Block`, `Blockchain`)

The `timestamp` field models the `chrono::DateTime<Utc>` produced by
`Utc::now()` as an abstract instant, threaded into the operations as an
explicit argument. -/

/-- A transaction: `{sender, recipient, amount: i64}`. -/
structure Transaction where
  sender : String
  recipient : String
  amount : Int
  deriving DecidableEq, Repr

/-- A block of the chain. -/
structure Block where
  index : Nat
  timestamp : Nat
  transactions : List Transaction
  proof : Nat
  previous_hash : Nat
  deriving DecidableEq, Repr

/-- The ledger: the chain of sealed blocks and the pending transaction pool. -/
structure Blockchain where
  chain : List Block
  current_transactions : List Transaction
  deriving DecidableEq, Repr

/-- The `Default` impl: empty chain, empty pool. -/
def defaultBlockchain : Blockchain := ⟨[], []⟩

/-- The 8 little-endian bytes of a 64-bit quantity, as the derived `Hash`
feeds `usize`/`u64` values to the hasher on a little-endian machine. -/
def u64LEbytes (n : Nat) : List Nat :=
  [n % 256, n / 2 ^ 8 % 256, n / 2 ^ 16 % 256, n / 2 ^ 24 % 256,
   n / 2 ^ 32 % 256, n / 2 ^ 40 % 256, n / 2 ^ 48 % 256, n / 2 ^ 56 % 256]

/-- The UTF-8 bytes of a string. -/
def strBytes (s : String) : List Nat := s.toUTF8.toList.map (fun b => b.toNat)

/-- The byte stream the derived `Hash` for `Transaction` feeds the hasher:
each `String` as its bytes plus a `0xff` terminator, the `i64` amount as its
8 two's-complement little-endian bytes. -/
def txBytes (t : Transaction) : List Nat :=
  strBytes t.sender ++ [0xff] ++ strBytes t.recipient ++ [0xff] ++
    u64LEbytes (Int.toNat (t.amount % (2 ^ 64 : Int)))

/-- The byte stream the derived `Hash` for `Block` feeds the hasher, field by
field in declaration order; `Vec<Transaction>` hashes its length first, then
each element.  Modelled from the spec for the timestamp: `chrono`'s
`DateTime` hash is external, modelled as the instant's 8 little-endian
bytes. -/
def blockBytes (b : Block) : List Nat :=
  u64LEbytes b.index ++ u64LEbytes b.timestamp ++
    u64LEbytes b.transactions.length ++ b.transactions.flatMap txBytes ++
    u64LEbytes b.proof ++ u64LEbytes b.previous_hash

namespace Blockchain

/-- The method `Blockchain::hash`: fingerprint a block with a fresh `DefaultHasher`
(SipHash-1-3, zero keys). -/
def hash (b : Block) : Nat := siphash13 0 0 (blockBytes b)

/-- The method `Blockchain::last_block`, i.e. `&self.chain[self.chain.len() - 1]`.  On an
empty chain the unsigned `len() - 1` underflows and the indexing panics;
modelled as `none`. -/
def last_block (bc : Blockchain) : Option Block := bc.chain.getLast?

/-- Seal a block with an already-computed `previous_hash`: the new block
takes index `len(chain) + 1`, the given timestamp, the entire pending pool
(`mem::swap` leaves the pool empty), the given proof; it is pushed onto the
chain. -/
def sealWith (bc : Blockchain) (proof ph now : Nat) : Blockchain :=
  { chain := bc.chain ++
      [{ index := bc.chain.length + 1, timestamp := now,
         transactions := bc.current_transactions, proof := proof,
         previous_hash := ph }],
    current_transactions := [] }

/-- The method `Blockchain::new_block`: `previous_hash` is the supplied override if
present, else (`unwrap_or_else`, evaluated lazily) the hash of the last
block — which panics (`none`) on an empty chain. -/
def new_block (bc : Blockchain) (proof : Nat) (previous_hash : Option Nat)
    (now : Nat) : Option Blockchain :=
  match previous_hash with
  | some ph => some (bc.sealWith proof ph now)
  | none => bc.last_block.map (fun lb => bc.sealWith proof (hash lb) now)

/-- The method `Blockchain::new_transaction`: push the transaction onto the pool, then
return `last_block().index + 1` (panicking — `none` — if the chain is
empty). -/
def new_transaction (bc : Blockchain) (t : Transaction) :
    Option (Blockchain × Nat) :=
  let bc1 : Blockchain :=
    { bc with current_transactions := bc.current_transactions ++ [t] }
  bc1.last_block.map (fun lb => (bc1, lb.index + 1))

end Blockchain

/-- The function `new_blockchain`: start from `Default` and add the genesis block with
proof 100 and previous-hash override 1. -/
def new_blockchain (t0 : Nat) : Blockchain :=
  (defaultBlockchain.new_block 100 (some 1) t0).getD defaultBlockchain

/-! ## Proof of work -/

/-- The method `Blockchain::valid_proof`: the first two bytes of the SHA-256 digest of
the two proofs, each written as 8 big-endian bytes, compared against the two
bytes of the literal `b"00"` (`0x30 0x30`). -/
def valid_proof (last_proof proof : Nat) : Bool :=
  let wtr := u64BEbytes last_proof ++ u64BEbytes proof
  (sha256 wtr).take 2 == [0x30, 0x30]

/-- The `while !valid_proof { proof += 1 }` loop of `proof_of_work`, with
explicit fuel standing for the unbounded search. -/
def powLoop (last_proof : Nat) : Nat → Nat → Option Nat
  | _, 0 => none
  | proof, fuel + 1 =>
    if valid_proof last_proof proof then some proof
    else powLoop last_proof (proof + 1) fuel

/-- The method `Blockchain::proof_of_work`: search candidates ascending from 0. -/
def proof_of_work (last_proof : Nat) (fuel : Nat) : Option Nat :=
  powLoop last_proof 0 fuel

/-! ## The `mine` handler's locking discipline

The `mine` request handler (src/main.rs) is a straight-line sequence; its
atomic steps and the reader/writer-lock operations among them are embedded
as a trace, in program order, so the lock-hold structure can be inspected:
`write()` is called first, the returned guard is live while the last proof
is read, `proof_of_work` runs, `new_block` seals, and the JSON response is
built; the guard drops (releasing the lock) only at the end of the
handler's scope. -/

/-- One atomic step of a request handler, as far as the lock is concerned. -/
inductive MineStep where
  | acquireRead
  | releaseRead
  | acquireWrite
  | readLastProof
  | runSolve
  | sealBlock
  | buildResponse
  | releaseWrite
  deriving DecidableEq, Repr

/-- The trace of the `mine` handler, in program order. -/
def mineHandler : List MineStep :=
  [.acquireWrite, .readLastProof, .runSolve, .sealBlock, .buildResponse,
   .releaseWrite]

/-- The exclusive (write) lock is held while step `i` of a trace executes:
strictly more write acquisitions than write releases precede it. -/
def writeHeldAt (evs : List MineStep) (i : Nat) : Bool :=
  Nat.blt ((evs.take i).count MineStep.releaseWrite)
    ((evs.take i).count MineStep.acquireWrite)

/-! ## Theorems -/

/-- C1 (counterexample): in the `mine` handler the proof-of-work search
(step 2, `runSolve`) executes while the exclusive write lock is held — the
handler's first step acquires the write lock and no shared (read)
acquisition occurs anywhere — contradicting the claim that the search runs
unlocked after a shared-access snapshot. -/
theorem mine_solve_holds_write_lock :
    mineHandler[2]? = some MineStep.runSolve ∧
      writeHeldAt mineHandler 2 = true ∧
      mineHandler[0]? = some MineStep.acquireWrite ∧
      MineStep.acquireRead ∉ mineHandler := by
  refine ⟨rfl, by decide, rfl, by decide⟩

/-- C1 (amended): the `mine` handler acquires the exclusive write lock as
its first step, the proof-of-work search is its third step, and every step
after the acquisition — the search and the sealing included — executes with
the write lock held, so readers and writers are excluded for the whole
duration of the search. -/
theorem mine_write_lock_spans_search :
    mineHandler[0]? = some MineStep.acquireWrite ∧
      mineHandler[2]? = some MineStep.runSolve ∧
      ∀ i, 0 < i → i < mineHandler.length → writeHeldAt mineHandler i = true := by
  refine ⟨rfl, rfl, ?_⟩
  intro i h0 hl
  have h6 : i < 6 := hl
  interval_cases i <;> decide

/-- Witness for `mine_write_lock_spans_search` at step 2 (the search). -/
theorem mine_write_lock_spans_search_witness : writeHeldAt mineHandler 2 = true :=
  mine_write_lock_spans_search.2.2 2 (by decide) (by decide)

/-- C5: initialization produces a single genesis block of index 1 with no
transactions, proof 100 and previous-hash 1, and an empty pool. -/
theorem new_blockchain_genesis_spec (t0 : Nat) :
    (new_blockchain t0).chain =
      [{ index := 1, timestamp := t0, transactions := [], proof := 100,
         previous_hash := 1 }] ∧
      (new_blockchain t0).current_transactions = [] :=
  ⟨rfl, rfl⟩

/-- The first two elements of a list are `a, b` exactly when the list starts
with `a :: b ::`. -/
theorem take_two_eq_pair_iff {l : List Nat} {a b : Nat} :
    l.take 2 = [a, b] ↔ ∃ r, l = a :: b :: r := by
  cases l with
  | nil => simp
  | cons x t =>
    cases t with
    | nil => simp
    | cons y r => simp [List.take_succ_cons, and_assoc]

/-- C2: `valid_proof` holds exactly when the SHA-256 digest of the 16-byte
big-endian concatenation of the two proofs begins with the raw bytes
`0x30 0x30` (ASCII `'0','0'`). -/
theorem valid_proof_iff_digest_leading_zero_bytes (lp p : Nat)
    (_hlp : lp < 2 ^ 64) (_hp : p < 2 ^ 64) :
    valid_proof lp p = true ↔
      ∃ r, sha256 (u64BEbytes lp ++ u64BEbytes p) = 0x30 :: 0x30 :: r := by
  rw [show valid_proof lp p =
        ((sha256 (u64BEbytes lp ++ u64BEbytes p)).take 2 == [0x30, 0x30])
      from rfl, beq_iff_eq]
  exact take_two_eq_pair_iff

/-- Witness for `valid_proof_iff_digest_leading_zero_bytes` at `(100, 0)`. -/
theorem valid_proof_iff_digest_leading_zero_bytes_witness :
    (100 : Nat) < 2 ^ 64 ∧ (0 : Nat) < 2 ^ 64 ∧
      (valid_proof 100 0 = true ↔
        ∃ r, sha256 (u64BEbytes 100 ++ u64BEbytes 0) = 0x30 :: 0x30 :: r) :=
  ⟨by norm_num, by norm_num,
    valid_proof_iff_digest_leading_zero_bytes 100 0 (by norm_num) (by norm_num)⟩

/-- The search loop, started at `start` with enough fuel, returns the least
valid candidate `m ≥ start` when all candidates below `m` (from `start` up)
are invalid. -/
theorem powLoop_eq_some (lp m : Nat) (hm : valid_proof lp m = true)
    (hbelow : ∀ k, k < m → valid_proof lp k = false) :
    ∀ fuel start, start ≤ m → m < start + fuel →
      powLoop lp start fuel = some m := by
  intro fuel
  induction fuel with
  | zero => intro start h1 h2; omega
  | succ n ih =>
    intro start h1 h2
    by_cases hs : start = m
    · subst hs
      simp [powLoop, hm]
    · have hlt : start < m := lt_of_le_of_ne h1 hs
      have hf : valid_proof lp start = false := hbelow start hlt
      simp only [powLoop, hf, Bool.false_eq_true, if_false]
      exact ih (start + 1) (by omega) (by omega)

/-- C3: whenever some 64-bit candidate satisfies the puzzle for `lp`, the
ascending-from-0 search of `proof_of_work` terminates (for any sufficient
fuel) at the least satisfying candidate, the same one on every call. -/
theorem proof_of_work_finds_least_valid (lp c : Nat) (_hc64 : c < 2 ^ 64)
    (hc : valid_proof lp c = true) :
    ∃ m, m ≤ c ∧ valid_proof lp m = true ∧
      (∀ k, k < m → valid_proof lp k = false) ∧
      ∀ fuel, c < fuel → proof_of_work lp fuel = some m := by
  have hex : ∃ n, valid_proof lp n = true := ⟨c, hc⟩
  refine ⟨Nat.find hex, Nat.find_min' hex hc, Nat.find_spec hex, ?_, ?_⟩
  · intro k hk
    have := Nat.find_min hex hk
    exact Bool.eq_false_iff.mpr this
  · intro fuel hfuel
    exact powLoop_eq_some lp (Nat.find hex) (Nat.find_spec hex)
      (fun k hk => Bool.eq_false_iff.mpr (Nat.find_min hex hk))
      fuel 0 (Nat.zero_le _) (by have := Nat.find_min' hex hc; omega)

set_option maxRecDepth 8000 in
/-- Witness for `proof_of_work_finds_least_valid` at `lp = 100` (the genesis
proof), whose least valid candidate is 27588. -/
theorem proof_of_work_finds_least_valid_witness :
    (27588 : Nat) < 2 ^ 64 ∧ valid_proof 100 27588 = true ∧
      ∃ m, m ≤ 27588 ∧ valid_proof 100 m = true ∧
        (∀ k, k < m → valid_proof 100 k = false) ∧
        ∀ fuel, 27588 < fuel → proof_of_work 100 fuel = some m :=
  ⟨by norm_num, by decide,
    proof_of_work_finds_least_valid 100 27588 (by norm_num) (by decide)⟩

/-- The method `new_transaction`, unfolded: push onto the pool, then read the next
index off the (unchanged) chain's last block. -/
theorem new_transaction_eq (bc : Blockchain) (t : Transaction) :
    bc.new_transaction t = bc.chain.getLast?.map
      (fun lb =>
        ({ bc with current_transactions := bc.current_transactions ++ [t] },
          lb.index + 1)) := rfl

/-- The method `new_block` with no override, unfolded: hash the last block (failing on
an empty chain) and seal with it. -/
theorem new_block_none_eq (bc : Blockchain) (proof now : Nat) :
    bc.new_block proof none now = bc.chain.getLast?.map
      (fun lb => bc.sealWith proof (Blockchain.hash lb) now) := rfl

/-- On a nonempty chain `new_transaction` succeeds, appends the transaction
at the end of the pool, and returns the last block's index plus one. -/
theorem new_transaction_spec (bc : Blockchain) (t : Transaction)
    (h : bc.chain ≠ []) :
    ∃ lb, bc.chain.getLast? = some lb ∧
      bc.new_transaction t =
        some ({ bc with
                  current_transactions := bc.current_transactions ++ [t] },
          lb.index + 1) := by
  obtain ⟨lb, hlb⟩ :=
    Option.isSome_iff_exists.mp (List.getLast?_isSome.mpr h)
  exact ⟨lb, hlb, by rw [new_transaction_eq, hlb]; rfl⟩

/-- A successful `new_transaction` leaves the chain untouched. -/
theorem new_transaction_chain_eq {bc bc' : Blockchain} {t : Transaction}
    {i : Nat} (h : bc.new_transaction t = some (bc', i)) :
    bc'.chain = bc.chain ∧
      bc'.current_transactions = bc.current_transactions ++ [t] := by
  rw [new_transaction_eq] at h
  cases hgl : bc.chain.getLast? with
  | none => rw [hgl] at h; cases h
  | some lb =>
    rw [hgl] at h
    simp only [Option.map_some', Option.some.injEq, Prod.mk.injEq] at h
    obtain ⟨hbc, -⟩ := h
    rw [← hbc]
    exact ⟨rfl, rfl⟩

/-- A successful `new_block` appends exactly one block. -/
theorem new_block_appends {bc bc' : Blockchain} {proof now : Nat}
    {ph : Option Nat} (h : bc.new_block proof ph now = some bc') :
    ∃ b, bc'.chain = bc.chain ++ [b] := by
  cases ph with
  | some v =>
    simp only [Blockchain.new_block, Option.some.injEq] at h
    exact ⟨{ index := bc.chain.length + 1, timestamp := now,
             transactions := bc.current_transactions, proof := proof,
             previous_hash := v }, by rw [← h]; rfl⟩
  | none =>
    rw [new_block_none_eq] at h
    cases hgl : bc.chain.getLast? with
    | none => rw [hgl] at h; cases h
    | some lb =>
      rw [hgl] at h
      simp only [Option.map_some', Option.some.injEq] at h
      exact ⟨{ index := bc.chain.length + 1, timestamp := now,
               transactions := bc.current_transactions, proof := proof,
               previous_hash := Blockchain.hash lb }, by rw [← h]; rfl⟩

/-- The ledger states reachable from initialization through transaction
submission and sealing with no previous-hash override. -/
inductive Reachable : Blockchain → Prop where
  | init (t0 : Nat) : Reachable (new_blockchain t0)
  | submit (bc bc' : Blockchain) (t : Transaction) (i : Nat) :
      Reachable bc → bc.new_transaction t = some (bc', i) → Reachable bc'
  | sealOp (bc bc' : Blockchain) (proof now : Nat) :
      Reachable bc → bc.new_block proof none now = some bc' → Reachable bc'

/-- Every reachable ledger has a nonempty chain, 1-based consecutive block
indices, and each block carrying the fingerprint of its predecessor. -/
theorem reachable_chain_invariant {bc : Blockchain} (h : Reachable bc) :
    bc.chain ≠ [] ∧
      (∀ i b, bc.chain[i]? = some b → b.index = i + 1) ∧
      (∀ i b b', bc.chain[i]? = some b → bc.chain[i + 1]? = some b' →
        b'.previous_hash = Blockchain.hash b) := by
  induction h with
  | init t0 =>
    have hg : (new_blockchain t0).chain =
        [{ index := 1, timestamp := t0, transactions := [], proof := 100,
           previous_hash := 1 }] := rfl
    rw [hg]
    refine ⟨by simp, ?_, ?_⟩
    · intro i b hb
      cases i with
      | zero => simp only [List.getElem?_cons_zero, Option.some.injEq] at hb; rw [← hb]
      | succ n => simp at hb
    · intro i b b' _hb hb'
      cases i <;> simp at hb'
  | submit bc bc' t i _hr hstep ih =>
    obtain ⟨hchain, -⟩ := new_transaction_chain_eq hstep
    rw [hchain]
    exact ih
  | sealOp bc bc' proof now _hr hstep ih =>
    rw [new_block_none_eq] at hstep
    cases hgl : bc.chain.getLast? with
    | none => rw [hgl] at hstep; cases hstep
    | some lb =>
      rw [hgl] at hstep
      simp only [Option.map_some', Option.some.injEq] at hstep
      subst hstep
      simp only [Blockchain.sealWith]
      refine ⟨by simp, ?_, ?_⟩
      · intro j b hb
        rcases Nat.lt_trichotomy j bc.chain.length with hj | hj | hj
        · rw [List.getElem?_append_left hj] at hb
          exact ih.2.1 j b hb
        · subst hj
          rw [List.getElem?_concat_length] at hb
          injection hb with hb
          rw [← hb]
        · rw [List.getElem?_eq_none (by simp only [List.length_append,
            List.length_cons, List.length_nil]; omega)] at hb
          cases hb
      · intro j b b' hb hb'
        rcases Nat.lt_trichotomy (j + 1) bc.chain.length with hj | hj | hj
        · rw [List.getElem?_append_left (by omega)] at hb
          rw [List.getElem?_append_left hj] at hb'
          exact ih.2.2 j b b' hb hb'
        · rw [List.getElem?_append_left (by omega)] at hb
          rw [hj, List.getElem?_concat_length] at hb'
          injection hb' with hb'
          rw [← hb']
          have hlast := List.getLast?_eq_getElem? bc.chain
          rw [hgl] at hlast
          have hj' : bc.chain.length - 1 = j := by omega
          rw [hj', hb] at hlast
          injection hlast with hlast
          rw [← hlast]
        · rw [List.getElem?_eq_none (by simp only [List.length_append,
            List.length_cons, List.length_nil]; omega)] at hb'
          cases hb'

/-- C4: in every reachable ledger state the chain is nonempty, block `i`
(0-based position) has index `i + 1`, and every block after the first
carries the fingerprint of its immediate predecessor. -/
theorem reachable_chain_linkage (bc : Blockchain) (h : Reachable bc) :
    bc.chain ≠ [] ∧
      (∀ i b, bc.chain[i]? = some b → b.index = i + 1) ∧
      (∀ i b b', bc.chain[i]? = some b → bc.chain[i + 1]? = some b' →
        b'.previous_hash = Blockchain.hash b) :=
  reachable_chain_invariant h

/-- Witness for `reachable_chain_linkage` at the freshly initialized
ledger. -/
theorem reachable_chain_linkage_witness :
    (new_blockchain 0).chain ≠ [] ∧
      (∀ i b, (new_blockchain 0).chain[i]? = some b → b.index = i + 1) ∧
      (∀ i b b', (new_blockchain 0).chain[i]? = some b →
        (new_blockchain 0).chain[i + 1]? = some b' →
        b'.previous_hash = Blockchain.hash b) :=
  reachable_chain_linkage (new_blockchain 0) (Reachable.init 0)

/-- C9: `last_block` fails (the unsigned `len() - 1` underflow makes the
index out of bounds) on the empty chain, modelled as `none`; the failure is
unreachable, because genesis sealing uses the explicit override — its lazy
`unwrap_or_else` never consults `last_block` — and every reachable state
has a nonempty chain, on which `last_block` succeeds. -/
theorem last_block_panic_unreachable :
    defaultBlockchain.last_block = none ∧
      (∀ t0, defaultBlockchain.new_block 100 (some 1) t0 =
        some (new_blockchain t0)) ∧
      ∀ bc, Reachable bc → (Blockchain.last_block bc).isSome = true := by
  refine ⟨rfl, fun t0 => rfl, ?_⟩
  intro bc h
  exact List.getLast?_isSome.mpr (reachable_chain_invariant h).1

/-- Witness for `last_block_panic_unreachable` at the freshly initialized
ledger. -/
theorem last_block_panic_unreachable_witness :
    (Blockchain.last_block (new_blockchain 0)).isSome = true :=
  last_block_panic_unreachable.2.2 (new_blockchain 0) (Reachable.init 0)

/-- C7: on a nonempty chain, `new_transaction` appends the transaction at
the end of the pending pool — every previously pending transaction keeps
its position — and returns the current last block's index plus one. -/
theorem new_transaction_appends_and_returns_next_index
    (bc : Blockchain) (t : Transaction) (h : bc.chain ≠ []) :
    ∃ lb, bc.last_block = some lb ∧
      bc.new_transaction t =
        some ({ bc with
                  current_transactions := bc.current_transactions ++ [t] },
          lb.index + 1) :=
  new_transaction_spec bc t h

/-- Witness for `new_transaction_appends_and_returns_next_index` on the
fresh ledger and the spec's first sample transaction. -/
theorem new_transaction_appends_and_returns_next_index_witness :
    ∃ lb, (new_blockchain 0).last_block = some lb ∧
      (new_blockchain 0).new_transaction ⟨"me", "you", 5⟩ =
        some ({ new_blockchain 0 with
                  current_transactions :=
                    (new_blockchain 0).current_transactions ++
                      [⟨"me", "you", 5⟩] },
          lb.index + 1) :=
  new_transaction_appends_and_returns_next_index (new_blockchain 0)
    ⟨"me", "you", 5⟩ (by decide)

/-- Submit a batch of transactions in order, propagating the panic
(`none`) of any failing `new_transaction`. -/
def submitAll (bc : Blockchain) : List Transaction → Option Blockchain
  | [] => some bc
  | t :: ts =>
    match bc.new_transaction t with
    | some (bc1, _) => submitAll bc1 ts
    | none => none

/-- On a nonempty chain, a batch submission succeeds, leaves the chain
unchanged, and appends the batch to the pool in order. -/
theorem submitAll_spec (ts : List Transaction) :
    ∀ bc : Blockchain, bc.chain ≠ [] →
      ∃ bc1, submitAll bc ts = some bc1 ∧ bc1.chain = bc.chain ∧
        bc1.current_transactions = bc.current_transactions ++ ts := by
  induction ts with
  | nil => intro bc _h; exact ⟨bc, rfl, rfl, by simp⟩
  | cons t ts ih =>
    intro bc h
    obtain ⟨lb, _hlb, hnt⟩ := new_transaction_spec bc t h
    obtain ⟨bc1, h1, h2, h3⟩ :=
      ih { bc with current_transactions := bc.current_transactions ++ [t] } h
    refine ⟨bc1, ?_, h2, ?_⟩
    · rw [submitAll, hnt]
      exact h1
    · rw [h3]
      simp

/-- C6: after submitting a batch of transactions and sealing once, the pool
is empty and the new block's transaction list is exactly the previously
pending transactions followed by the batch, in submission order. -/
theorem submit_then_seal_moves_pool (bc : Blockchain) (ts : List Transaction)
    (proof now : Nat) (h : bc.chain ≠ []) :
    ∃ bc1 bc2, submitAll bc ts = some bc1 ∧
      bc1.new_block proof none now = some bc2 ∧
      bc2.current_transactions = [] ∧
      ∃ nb, bc2.chain.getLast? = some nb ∧
        nb.transactions = bc.current_transactions ++ ts := by
  obtain ⟨bc1, h1, hchain, hpool⟩ := submitAll_spec ts bc h
  have hne : bc1.chain ≠ [] := by rw [hchain]; exact h
  obtain ⟨lb, hlb⟩ :=
    Option.isSome_iff_exists.mp (List.getLast?_isSome.mpr hne)
  refine ⟨bc1, bc1.sealWith proof (Blockchain.hash lb) now, h1,
    by rw [new_block_none_eq, hlb]; rfl, rfl,
    ⟨{ index := bc1.chain.length + 1, timestamp := now,
       transactions := bc1.current_transactions, proof := proof,
       previous_hash := Blockchain.hash lb }, ?_, ?_⟩⟩
  · exact List.getLast?_concat _
  · exact hpool

/-- Witness for `submit_then_seal_moves_pool`: the spec's concrete
scenario — two transactions submitted on the fresh ledger, then one
seal. -/
theorem submit_then_seal_moves_pool_witness :
    ∃ bc1 bc2,
      submitAll (new_blockchain 0) [⟨"me", "you", 5⟩, ⟨"you", "me", 2⟩] =
        some bc1 ∧
      bc1.new_block 7 none 1 = some bc2 ∧
      bc2.current_transactions = [] ∧
      ∃ nb, bc2.chain.getLast? = some nb ∧
        nb.transactions = (new_blockchain 0).current_transactions ++
          [⟨"me", "you", 5⟩, ⟨"you", "me", 2⟩] :=
  submit_then_seal_moves_pool (new_blockchain 0)
    [⟨"me", "you", 5⟩, ⟨"you", "me", 2⟩] 7 1 (by decide)

/-- C10: the chain is append-only — a successful seal appends exactly one
block, keeping every previously sealed block at its position, and a
successful transaction submission leaves the chain entirely unchanged. -/
theorem chain_append_only :
    (∀ (bc : Blockchain) (proof : Nat) (ph : Option Nat) (now : Nat)
        (bc' : Blockchain), bc.new_block proof ph now = some bc' →
        ∃ b, bc'.chain = bc.chain ++ [b]) ∧
      ∀ (bc : Blockchain) (t : Transaction) (bc' : Blockchain) (i : Nat),
        bc.new_transaction t = some (bc', i) → bc'.chain = bc.chain :=
  ⟨fun _bc _proof _ph _now _bc' h => new_block_appends h,
    fun _bc _t _bc' _i h => (new_transaction_chain_eq h).1⟩

/-- Witness for `chain_append_only`: sealing the fresh ledger with an
override appends one block. -/
theorem chain_append_only_witness :
    ∃ b, ((new_blockchain 0).sealWith 5 2 1).chain =
      (new_blockchain 0).chain ++ [b] :=
  chain_append_only.1 (new_blockchain 0) 5 (some 2) 1
    ((new_blockchain 0).sealWith 5 2 1) rfl

/-- C8: the chain-linkage fingerprint is deterministic — structurally equal
blocks (equal index, timestamp, transaction list, proof and previous-hash)
hash to the same 64-bit value. -/
theorem hash_deterministic_on_equal_fields (b1 b2 : Block)
    (hI : b1.index = b2.index) (hT : b1.timestamp = b2.timestamp)
    (hX : b1.transactions = b2.transactions) (hP : b1.proof = b2.proof)
    (hH : b1.previous_hash = b2.previous_hash) :
    Blockchain.hash b1 = Blockchain.hash b2 := by
  have : b1 = b2 := by
    cases b1; cases b2; simp_all
  rw [this]

/-- Witness for `hash_deterministic_on_equal_fields` at two copies of the
genesis block. -/
theorem hash_deterministic_on_equal_fields_witness :
    Blockchain.hash
        { index := 1, timestamp := 0, transactions := [], proof := 100,
          previous_hash := 1 } =
      Blockchain.hash
        { index := 1, timestamp := 0, transactions := [], proof := 100,
          previous_hash := 1 } :=
  hash_deterministic_on_equal_fields _ _ rfl rfl rfl rfl rfl
